import Mathlib

/-!
# Verification of the Drive Video Merger core (merger.py)

A shallow embedding of the correlation-and-selection engine of the merger:

* the URL classifier (`is_valid_url`, `get_itag`, `get_media_type`,
  `get_content_length`, `QUALITY_PRIORITY`),
* the capture extractor (`process_har`, `_select_best_url`),
* the file-readiness poller (`check_file_ready`),
* the merge dispatcher (`merge_files`), and
* the session correlator (`extract_session_info`, `process_file`,
  `combine_session`).

Strings are modelled as `List Char` where convenient; file-system,
subprocess and wall-clock effects are modelled as explicit oracles
(a size-probe sequence, a `run` function on argument lists, and
boolean readiness/merge-success functions).  Python's `re` matching
is modelled at the ASCII level (the character classes `\d`, `[a-z0-9]`
are read as their ASCII ranges).
-/

namespace Merger

/-! ## String utilities -/

/-- `hasSub pat s` models Python's substring test `pat in s`. -/
def hasSub (pat : List Char) : List Char → Bool
  | [] => pat.isEmpty
  | c :: rest => pat.isPrefixOf (c :: rest) || hasSub pat rest

/-- Substring test on `String`s. -/
def strHasSub (pat s : String) : Bool := hasSub pat.toList s.toList

/-- Numeric value of one hexadecimal digit. -/
def hexVal (c : Char) : Nat :=
  if c.isDigit then c.toNat - 48
  else if 'a' ≤ c ∧ c ≤ 'f' then c.toNat - 87
  else c.toNat - 55

/-- Whether `c` is a hexadecimal digit. -/
def isHexDigit (c : Char) : Bool :=
  c.isDigit || ('a' ≤ c && c ≤ 'f') || ('A' ≤ c && c ≤ 'F')

/-- ASCII model of `urllib.parse.unquote`: decode `%XX` escape pairs. -/
def percentDecode : List Char → List Char
  | [] => []
  | '%' :: h1 :: h2 :: rest =>
    if isHexDigit h1 && isHexDigit h2 then
      Char.ofNat (16 * hexVal h1 + hexVal h2) :: percentDecode rest
    else '%' :: percentDecode (h1 :: h2 :: rest)
  | c :: rest => c :: percentDecode rest

/-- Value of a run of decimal digits. -/
def digitsToNat (ds : List Char) : Nat :=
  ds.foldl (fun acc c => acc * 10 + (c.toNat - 48)) 0

/-- Try to read `pre` at the head of `s` followed by at least one digit;
on success return the value of the maximal digit run (greedy `(\d+)`). -/
def numAt (pre : List Char) (s : List Char) : Option Nat :=
  if pre.isPrefixOf s then
    let ds := (s.drop pre.length).takeWhile Char.isDigit
    if ds.isEmpty then none else some (digitsToNat ds)
  else none

/-- Leftmost match of any of the literal heads in `pres` followed by a
digit run, as `re.search` does for an alternation of such patterns. -/
def searchNumAfter (pres : List (List Char)) : List Char → Option Nat
  | [] => none
  | c :: rest =>
    match pres.findSome? (fun p => numAt p (c :: rest)) with
    | some n => some n
    | none => searchNumAfter pres rest

/-! ## URL classifier (`HARProcessor` static methods) -/

/-- `HARProcessor.get_itag`: `re.search(r'itag[=/](\d+)', url)`. -/
def get_itag (url : String) : Option Nat :=
  searchNumAfter ["itag=".toList, "itag/".toList] url.toList

/-- `HARProcessor.get_content_length`: `re.search(r'clen=(\d+)', url)`,
`0` when absent. -/
def get_content_length (url : String) : Nat :=
  (searchNumAfter ["clen=".toList] url.toList).getD 0

/-- `HARProcessor.is_valid_url`: requires the `videoplayback` marker and
rejects URLs carrying both chunked-streaming markers `ump=1` and
`srfvp=1`. -/
def is_valid_url (url : String) : Bool :=
  if !strHasSub "videoplayback" url then false
  else if strHasSub "ump=1" url && strHasSub "srfvp=1" url then false
  else true

/-- `HARProcessor.VIDEO_ITAGS`. -/
def VIDEO_ITAGS : List Nat :=
  [137, 136, 135, 134, 133, 160, 298, 299, 264, 266, 138, 313, 315, 272, 308,
   243, 244, 245, 246, 247, 248, 278, 302, 303, 330, 331, 332, 333, 334, 335, 336, 337]

/-- `HARProcessor.AUDIO_ITAGS`. -/
def AUDIO_ITAGS : List Nat := [140, 141, 171, 249, 250, 251, 139, 172]

/-- Media kind of a candidate URL. -/
inductive MediaType where
  | video
  | audio
  deriving DecidableEq, Repr

/-- `HARProcessor.get_media_type`: first the `mime=` marker on the
lowercased URL, then the itag membership sets; `none` for unknown.
The Python truthiness test `if itag:` makes a parsed itag of `0` fall
through to `None`. -/
def get_media_type (url : String) : Option MediaType :=
  let lower : List Char := url.toList.map Char.toLower
  if hasSub "mime=video".toList lower then some .video
  else if hasSub "mime=audio".toList lower then some .audio
  else
    match get_itag url with
    | some itag =>
      if itag = 0 then none
      else if VIDEO_ITAGS.contains itag then some .video
      else if AUDIO_ITAGS.contains itag then some .audio
      else none
    | none => none

/-- `HARProcessor.QUALITY_PRIORITY` as the association list of the
source dictionary literal (comments give the source's resolution and
bitrate annotations). -/
def QUALITY_PRIORITY : List (Nat × Nat) :=
  [(266, 10), (313, 10), (315, 11),  -- 2160p
   (264, 8), (308, 9),               -- 1440p
   (137, 6), (299, 7),               -- 1080p
   (136, 4), (298, 5),               -- 720p
   (135, 3),                         -- 480p
   (134, 2),                         -- 360p
   (133, 1),                         -- 240p
   (160, 0),                         -- 144p
   (141, 5),                         -- 256kbps
   (251, 4),                         -- 160kbps
   (140, 3),                         -- 128kbps
   (250, 2),                         -- 70kbps
   (249, 1)]                         -- 50kbps

/-- `QUALITY_PRIORITY.get(itag, 0)`: table lookup with default `0`. -/
def qualityRank (itag : Nat) : Nat :=
  (QUALITY_PRIORITY.lookup itag).getD 0

/-- Rank of an optional itag (the extractor looks up `None` as well,
which the dictionary never contains, yielding the default `0`). -/
def qualityRankOpt : Option Nat → Nat
  | none => 0
  | some itag => qualityRank itag

/-! ## Capture extractor (`HARProcessor.process_har`, `_select_best_url`) -/

/-- The per-candidate record built by `process_har`'s entry loop
(`url_info` in the source). -/
structure UrlInfo where
  url : String
  itag : Option Nat
  priority : Nat
  clen : Nat
  has_redirect : Bool
  deriving DecidableEq, Repr

/-- The sort key of `_select_best_url`:
`(has_redirect, priority, clen)`. -/
def sortKey (u : UrlInfo) : Bool × Nat × Nat := (u.has_redirect, u.priority, u.clen)

/-- Python's lexicographic `<` on the 3-tuple `(bool, int, int)`
(`False < True` on booleans). -/
def tupLt (a b : Bool × Nat × Nat) : Bool :=
  (!a.1 && b.1) ||
    (a.1 == b.1 &&
      (decide (a.2.1 < b.2.1) || (a.2.1 == b.2.1 && decide (a.2.2 < b.2.2))))

/-- One step of a stable descending insertion: the element being
inserted arrived earlier in the original list, so it stays in front of
every element whose key it does not strictly lose to. -/
def insertDescend (x : UrlInfo) : List UrlInfo → List UrlInfo
  | [] => [x]
  | y :: ys => if tupLt (sortKey x) (sortKey y) then y :: insertDescend x ys else x :: y :: ys

/-- Model of `urls.sort(key=lambda x: (x['has_redirect'], x['priority'],
x['clen']), reverse=True)`: the stable descending sort of the candidate
list.  A stable sort is the unique sorted permutation preserving the
relative order of key-equal elements, so insertion sort is a faithful
model of CPython's Timsort here. -/
def sortDescend : List UrlInfo → List UrlInfo
  | [] => []
  | x :: xs => insertDescend x (sortDescend xs)

/-- `HARProcessor._select_best_url`: sort descending by the 3-tuple key
and return the head (`urls[0]`), `None` on an empty list. -/
def _select_best_url (urls : List UrlInfo) : Option UrlInfo :=
  (sortDescend urls).head?

/-- Recursive characterisation of the head of the stable descending
sort: the first element of the list that strictly beats every later
best. -/
def bestOf : List UrlInfo → Option UrlInfo
  | [] => none
  | x :: xs =>
    match bestOf xs with
    | none => some x
    | some b => if tupLt (sortKey x) (sortKey b) then some b else some x

/-! ## The `process_har` entry pipeline -/

/-- One iteration of the entry loop of `HARProcessor.process_har`,
applied to the one field the extractor reads from a capture entry
(`entry['request']['url']`): skip non-`videoplayback` URLs,
percent-decode, classify the media kind, drop invalid URLs, and build
the candidate record. -/
def processEntry (rawUrl : String) : Option (MediaType × UrlInfo) :=
  if !strHasSub "videoplayback" rawUrl then none
  else
    let url : String := ⟨percentDecode rawUrl.toList⟩
    match get_media_type url with
    | none => none
    | some mt =>
      if !is_valid_url url then none
      else
        some (mt,
          { url := url
            itag := get_itag url
            priority := qualityRankOpt (get_itag url)
            clen := get_content_length url
            has_redirect := strHasSub "cms_redirect=yes" url })

/-- The `video_urls` list accumulated by the entry loop, in entry
order. -/
def videoBucket (doc : List String) : List UrlInfo :=
  doc.filterMap (fun u =>
    match processEntry u with
    | some (.video, info) => some info
    | _ => none)

/-- The `audio_urls` list accumulated by the entry loop, in entry
order. -/
def audioBucket (doc : List String) : List UrlInfo :=
  doc.filterMap (fun u =>
    match processEntry u with
    | some (.audio, info) => some info
    | _ => none)

/-- `HARProcessor.process_har`, modelled on the list of request-URL
strings of the capture document: returns the best video and the best
audio candidate. -/
def process_har (doc : List String) : Option UrlInfo × Option UrlInfo :=
  (_select_best_url (videoBucket doc), _select_best_url (audioBucket doc))

/-! ## C4: the quality-priority ordering contract -/

/-- The video identifiers of `QUALITY_PRIORITY`, grouped by the
resolution annotated in the source (2160p, 1440p, 1080p, 720p, 480p,
360p, 240p, 144p), highest first. -/
def videoTiers : List (List Nat) :=
  [[266, 313, 315], [264, 308], [137, 299], [136, 298], [135], [134], [133], [160]]

/-- The audio identifiers of `QUALITY_PRIORITY` in the bitrate order
annotated in the source (256, 160, 128, 70, 50 kbps), highest first. -/
def audioByBitrate : List Nat := [141, 251, 140, 250, 249]

/-- The keys of the `QUALITY_PRIORITY` dictionary. -/
def qualityKeys : List Nat := QUALITY_PRIORITY.map Prod.fst

/-! ## Session-key extraction (`VideoMerger.extract_session_info`)

The source matches `re.match(r'^(video|audio)_(\d+)_([a-z0-9]+)\.mp4$',
filename, re.IGNORECASE)`.  `re.IGNORECASE` applies to the whole
pattern, and `$` also matches just before one trailing newline; both
behaviours are modelled.  Character classes are read at the ASCII
level. -/

/-- `$` semantics of Python's `re`: a single trailing newline is
tolerated at the end of the subject. -/
def stripNL (s : List Char) : List Char :=
  if s.getLast? = some '\n' then s.dropLast else s

/-- Match `(\d+)_([a-z0-9]+)` (under `re.IGNORECASE`, so letters of
either case in the token) against the whole of `body`, returning the
two groups. -/
def matchBody (body : List Char) : Option (List Char × List Char) :=
  let ds := body.takeWhile (fun c => c != '_')
  match body.dropWhile (fun c => c != '_') with
  | '_' :: tk =>
    if !ds.isEmpty && ds.all Char.isDigit && !tk.isEmpty &&
        tk.all (fun c => c.isAlpha || c.isDigit)
    then some (ds, tk) else none
  | _ => none

/-- After the role and its underscore (6 characters), the remainder
must be `(\d+)_([a-z0-9]+)\.mp4` with the extension compared
case-insensitively. -/
def extractAfterRole (role : String) (s : List Char) : Option (String × String) :=
  if ((s.map Char.toLower).drop 6).drop ((s.drop 6).length - 4) == ".mp4".toList then
    match matchBody ((s.drop 6).take ((s.drop 6).length - 4)) with
    | some (ds, tk) => some (role, String.mk (ds ++ '_' :: tk))
    | none => none
  else none

/-- The anchored match on a (newline-stripped) character list:
case-insensitive role dispatch, then the body/extension match. -/
def extractCore (s : List Char) : Option (String × String) :=
  if (s.map Char.toLower).take 6 == "video_".toList then extractAfterRole "video" s
  else if (s.map Char.toLower).take 6 == "audio_".toList then extractAfterRole "audio" s
  else none

/-- `VideoMerger.extract_session_info`: returns the lowercased file
type and the session key `{timestamp}_{token}` (token case preserved),
or `none` for a non-matching name. -/
def extract_session_info (filename : String) : Option (String × String) :=
  extractCore (stripNL filename.toList)

/-- The matching rule exactly as the claim words it: role matched
case-insensitively, timestamp and token matched exactly as written
(so token letters must be lowercase `[a-z0-9]`), literal `.mp4`
extension.  Stated as an executable acceptor for comparison with
`extract_session_info`. -/
def claimAccepts (filename : String) : Bool :=
  let s := filename.toList
  let body := (s.drop 6).take ((s.drop 6).length - 4)
  let ds := body.takeWhile (fun c => c != '_')
  ((s.map Char.toLower).take 6 == "video_".toList ||
    (s.map Char.toLower).take 6 == "audio_".toList) &&
  (s.drop 6).drop ((s.drop 6).length - 4) == ".mp4".toList &&
  (match body.dropWhile (fun c => c != '_') with
   | '_' :: tk =>
     !ds.isEmpty && ds.all Char.isDigit && !tk.isEmpty &&
       tk.all (fun c => c.isLower || c.isDigit)
   | _ => false)

/-- The shape actually accepted by the source: the whole pattern is
matched case-insensitively — role part (with its underscore), token
letters of either case, and the `.mp4` extension. -/
def ValidName (s : List Char) : Prop :=
  ∃ role6 ds tk ext,
    s = role6 ++ (ds ++ ('_' :: (tk ++ ext))) ∧
    (role6.map Char.toLower = "video_".toList ∨
      role6.map Char.toLower = "audio_".toList) ∧
    ds ≠ [] ∧ (∀ c ∈ ds, c.isDigit = true) ∧
    tk ≠ [] ∧ (∀ c ∈ tk, (c.isAlpha || c.isDigit) = true) ∧
    ext.map Char.toLower = ".mp4".toList

/-! ## Readiness detector (`VideoMerger.check_file_ready`)

The polling loop reads the file size once per iteration (sleeping one
second in between) until the wall-clock timeout elapses.  It is
modelled on the sequence of size probes the loop would observe:
`some n` for a successful `os.path.getsize` returning `n`, `none` for
an `OSError`; the length of the list is the number of iterations the
timeout budget allows.  `last_size` starts at the sentinel `-1`. -/

/-- The body of the polling loop of `check_file_ready`.  An equal
nonzero reading increments the stability counter (returning `true` at
three); any other successful reading resets the counter and updates
`last_size`; a failed probe (`except OSError: pass`) changes nothing. -/
def stableLoop : List (Option Nat) → Int → Nat → Bool
  | [], _, _ => false
  | r :: rs, last, stable =>
    match r with
    | some cur =>
      if (cur : Int) = last ∧ 0 < cur then
        if stable + 1 ≥ 3 then true else stableLoop rs last (stable + 1)
      else stableLoop rs (cur : Int) 0
    | none => stableLoop rs last stable

/-- `VideoMerger.check_file_ready`: `false` immediately when the path
does not exist, otherwise the polling loop with `last_size = -1` and
`stable_count = 0`. -/
def check_file_ready (exists0 : Bool) (readings : List (Option Nat)) : Bool :=
  if exists0 then stableLoop readings (-1) 0 else false

/-- Modelled from the spec's words for comparison (claim C7): a variant
of the polling loop in which a failed size probe also resets the
stability counter to zero, as the claim asserts the code does. -/
def stableLoopClaim : List (Option Nat) → Int → Nat → Bool
  | [], _, _ => false
  | r :: rs, last, stable =>
    match r with
    | some cur =>
      if (cur : Int) = last ∧ 0 < cur then
        if stable + 1 ≥ 3 then true else stableLoopClaim rs last (stable + 1)
      else stableLoopClaim rs (cur : Int) 0
    | none => stableLoopClaim rs last 0

/-! ## Merge dispatcher (`VideoMerger.merge_files`) -/

/-- Outcome of launching the external remux subprocess, as the source's
exception handlers discriminate it: a completed run with its exit code,
`subprocess.TimeoutExpired`, `FileNotFoundError`, or any other launch
error. -/
inductive RunResult where
  | completed (returncode : Int)
  | timedOut
  | notFound
  | otherError
  deriving DecidableEq, Repr

/-- The argument list built by `merge_files`. -/
def buildCmd (ffmpegPath video audio output : String) : List String :=
  [ffmpegPath, "-i", video, "-i", audio, "-c:v", "copy", "-c:a", "copy", "-y", output]

/-- `VideoMerger.merge_files`: run the remux tool on the fixed argument
list (the subprocess is the oracle `run`); `true` exactly on exit code
`0`, `false` (never an exception) on a non-zero exit, a timeout, a
missing executable, or any other launch error. -/
def merge_files (run : List String → RunResult)
    (ffmpegPath video audio output : String) : Bool :=
  match run (buildCmd ffmpegPath video audio output) with
  | .completed rc => rc == 0
  | .timedOut => false
  | .notFound => false
  | .otherError => false

/-! ## Session correlator (`VideoMerger.process_file`, `combine_session`)

State of the `VideoMerger` instance: `pending_files` is the
`{session_id: {video: path, audio: path}}` dictionary (an association
list from session key to the optional two halves; the `defaultdict`
yields the empty entry for an absent key), `processed` is the
`processed_sessions` set.  File-system readiness and remux success are
oracles; each step returns the remux invocations it performed as
`(video_path, audio_path)` pairs. -/
structure MState where
  pending : List (String × (Option String × Option String))
  processed : List String
  deriving DecidableEq, Repr

/-- Update-or-add an entry of the pending dictionary. -/
def upsert (sid : String) (v : Option String × Option String) :
    List (String × (Option String × Option String)) →
      List (String × (Option String × Option String))
  | [] => [(sid, v)]
  | (k, x) :: rest => if k = sid then (sid, v) :: rest else (k, x) :: upsert sid v rest

/-- `del pending_files[session_id]`. -/
def eraseKey (sid : String) :
    List (String × (Option String × Option String)) →
      List (String × (Option String × Option String))
  | [] => []
  | (k, x) :: rest => if k = sid then rest else (k, x) :: eraseKey sid rest

/-- `os.path.basename` (Windows flavour: both separators). -/
def basename (p : String) : String :=
  ⟨((p.toList.reverse.takeWhile (fun c => c != '/' && c != '\\'))).reverse⟩

/-- `VideoMerger.combine_session`: guard against already-processed
sessions, read both halves, invoke the remux tool (recorded in the
returned call list), mark the session processed on success, and drop
the pending entry.  The source raises `KeyError` when a half is
missing; its callers guarantee both halves are present, and that
unreachable path is modelled as a no-op. -/
def combine_session (mergeOk : String → String → Bool) (st : MState)
    (sid : String) : MState × List (String × String) :=
  if st.processed.contains sid then (st, [])
  else
    match (st.pending.lookup sid).getD (none, none) with
    | (some videoPath, some audioPath) =>
      let ok := mergeOk videoPath audioPath
      let processed' := if ok then sid :: st.processed else st.processed
      ({ pending := eraseKey sid st.pending, processed := processed' },
        [(videoPath, audioPath)])
    | _ => (st, [])

/-- `VideoMerger.process_file`: derive the session key from the base
name, skip unrecognized names and already-processed sessions, require
readiness, record the half under its session, and combine when both
halves are present. -/
def process_file (ready : String → Bool) (mergeOk : String → String → Bool)
    (st : MState) (filepath : String) : MState × List (String × String) :=
  match extract_session_info (basename filepath) with
  | none => (st, [])
  | some (fileType, sid) =>
    if st.processed.contains sid then (st, [])
    else if !ready filepath then (st, [])
    else
      let cur := (st.pending.lookup sid).getD (none, none)
      let cur' := if fileType = "video" then (some filepath, cur.2)
                  else (cur.1, some filepath)
      let st' : MState := { st with pending := upsert sid cur' st.pending }
      if cur'.1.isSome && cur'.2.isSome then combine_session mergeOk st' sid
      else (st', [])

/-! ## C2: chunked-marker rejection -/

/-- **C2** (corrected): `is_valid_url` rejects a URL exactly when it
lacks the `videoplayback` marker or carries both chunked-transfer
markers `ump=1` and `srfvp=1`; a `videoplayback` URL with at most one
of the two markers is never rejected. -/
theorem is_valid_url_amended (url : String) :
    is_valid_url url = false ↔
      (strHasSub "videoplayback" url = false ∨
        (strHasSub "ump=1" url = true ∧ strHasSub "srfvp=1" url = true)) := by
  cases h1 : strHasSub "videoplayback" url <;>
    cases h2 : strHasSub "ump=1" url <;>
      cases h3 : strHasSub "srfvp=1" url <;>
        simp [is_valid_url, h1, h2, h3]

/-- **C2** counterexample: the string `"ump=1"` carries exactly one of
the two chunked markers, yet `is_valid_url` rejects it (it lacks
`videoplayback`), contradicting the claim that a URL with exactly one
marker is never rejected. -/
theorem is_valid_url_claim_counterexample :
    is_valid_url "ump=1" = false ∧
      strHasSub "ump=1" "ump=1" = true ∧
      strHasSub "srfvp=1" "ump=1" = false := by
  decide

theorem tupLt_iff (a b : Bool × Nat × Nat) :
    tupLt a b = true ↔
      (a.1 = false ∧ b.1 = true) ∨
        (a.1 = b.1 ∧ (a.2.1 < b.2.1 ∨ (a.2.1 = b.2.1 ∧ a.2.2 < b.2.2))) := by
  obtain ⟨a1, a2, a3⟩ := a
  obtain ⟨b1, b2, b3⟩ := b
  cases a1 <;> cases b1 <;> simp [tupLt]

theorem tupLt_irrefl (a : Bool × Nat × Nat) : tupLt a a = false := by
  obtain ⟨a1, a2, a3⟩ := a
  cases a1 <;> simp [tupLt]

theorem tupLt_asymm {a b : Bool × Nat × Nat} (h : tupLt a b = true) :
    tupLt b a = false := by
  obtain ⟨a1, a2, a3⟩ := a
  obtain ⟨b1, b2, b3⟩ := b
  rw [tupLt_iff] at h
  cases a1 <;> cases b1 <;> simp_all [tupLt] <;> omega

/-- `a < u` and `¬ b < u` (so `u ≤ b`) imply `a < b`. -/
theorem tupLt_of_lt_of_nlt {a b u : Bool × Nat × Nat}
    (h1 : tupLt a u = true) (h2 : tupLt b u = false) : tupLt a b = true := by
  obtain ⟨a1, a2, a3⟩ := a
  obtain ⟨b1, b2, b3⟩ := b
  obtain ⟨u1, u2, u3⟩ := u
  rw [tupLt_iff] at h1 ⊢
  have h2' : ¬ tupLt (b1, b2, b3) (u1, u2, u3) = true := by simp [h2]
  rw [tupLt_iff] at h2'
  cases a1 <;> cases b1 <;> cases u1 <;> simp_all <;> omega

theorem sortDescend_head_eq_bestOf (l : List UrlInfo) :
    (sortDescend l).head? = bestOf l := by
  induction l with
  | nil => rfl
  | cons x xs ih =>
    show (insertDescend x (sortDescend xs)).head? = _
    cases hs : sortDescend xs with
    | nil =>
      rw [hs] at ih
      simp [insertDescend, bestOf, ← ih]
    | cons y ys =>
      rw [hs] at ih
      simp only [List.head?] at ih
      simp only [insertDescend, bestOf, ← ih]
      split <;> simp

theorem _select_best_url_eq_bestOf (l : List UrlInfo) :
    _select_best_url l = bestOf l :=
  sortDescend_head_eq_bestOf l

theorem bestOf_eq_none_iff (l : List UrlInfo) : bestOf l = none ↔ l = [] := by
  cases l with
  | nil => simp [bestOf]
  | cons x xs =>
    simp only [bestOf]
    cases bestOf xs with
    | none => simp
    | some b => simp only []; split <;> simp

theorem bestOf_mem {l : List UrlInfo} {b : UrlInfo} (h : bestOf l = some b) :
    b ∈ l := by
  induction l with
  | nil => simp [bestOf] at h
  | cons x xs ih =>
    cases hb : bestOf xs with
    | none =>
      simp only [bestOf, hb, Option.some.injEq] at h
      simp [← h]
    | some b' =>
      simp only [bestOf, hb] at h
      split at h
      · simp only [Option.some.injEq] at h
        exact List.mem_cons_of_mem x (ih (h ▸ hb))
      · simp only [Option.some.injEq] at h
        exact h ▸ List.mem_cons_self x xs

theorem bestOf_not_lt {l : List UrlInfo} : ∀ {b : UrlInfo}, bestOf l = some b →
    ∀ u ∈ l, tupLt (sortKey b) (sortKey u) = false := by
  induction l with
  | nil => intro b h; simp [bestOf] at h
  | cons x xs ih =>
    intro b h u hu
    cases hb : bestOf xs with
    | none =>
      have hxs : xs = [] := (bestOf_eq_none_iff xs).mp hb
      subst hxs
      simp only [bestOf, Option.some.injEq] at h
      rcases List.mem_cons.mp hu with rfl | hu'
      · rw [← h]; exact tupLt_irrefl _
      · simp at hu'
    | some b' =>
      simp only [bestOf, hb] at h
      split at h
      · -- x strictly loses to b', result is b'
        simp only [Option.some.injEq] at h
        subst h
        rcases List.mem_cons.mp hu with rfl | hu'
        · exact tupLt_asymm (by assumption)
        · exact ih hb u hu'
      · -- x keeps the front, result is x
        simp only [Option.some.injEq] at h
        subst h
        rename_i hnlt
        rcases List.mem_cons.mp hu with rfl | hu'
        · exact tupLt_irrefl _
        · by_contra hbu
          have hbu' : tupLt (sortKey x) (sortKey u) = true := by
            cases hx : tupLt (sortKey x) (sortKey u)
            · exact absurd hx hbu
            · rfl
          have hb'u : tupLt (sortKey b') (sortKey u) = false := ih hb u hu'
          exact hnlt (tupLt_of_lt_of_nlt hbu' hb'u)

/-- The chosen element is the earliest element of the list attaining
the maximal key: every element strictly before it has a strictly
smaller key. -/
theorem bestOf_first_max {l : List UrlInfo} {b : UrlInfo} (h : bestOf l = some b) :
    ∃ l₁ l₂, l = l₁ ++ b :: l₂ ∧ ∀ u ∈ l₁, tupLt (sortKey u) (sortKey b) = true := by
  induction l with
  | nil => simp [bestOf] at h
  | cons x xs ih =>
    cases hb : bestOf xs with
    | none =>
      simp only [bestOf, hb, Option.some.injEq] at h
      exact ⟨[], xs, by simp [h], by simp⟩
    | some b' =>
      simp only [bestOf, hb] at h
      split at h
      · simp only [Option.some.injEq] at h
        subst h
        obtain ⟨l₁, l₂, hdecomp, hlt⟩ := ih hb
        refine ⟨x :: l₁, l₂, by rw [hdecomp]; rfl, ?_⟩
        intro u hu
        rcases List.mem_cons.mp hu with rfl | hu'
        · assumption
        · exact hlt u hu'
      · simp only [Option.some.injEq] at h
        subst h
        exact ⟨[], xs, rfl, by simp⟩

/-! ## C1 and C10: best-candidate selection -/

/-- **C1** (confirmed): on every capture document whose surviving
entries include at least one video and one audio candidate,
`process_har` returns a candidate for both buckets, each a maximum of
its bucket under the lexicographic order on
`(has_redirect, priority, clen)`; a bucket with no surviving
candidates yields `none` (`_select_best_url` is `none` exactly on the
empty bucket). -/
theorem process_har_selects_maximum (doc : List String)
    (hv : videoBucket doc ≠ []) (ha : audioBucket doc ≠ []) :
    ∃ bv ba, process_har doc = (some bv, some ba) ∧
      bv ∈ videoBucket doc ∧
      (∀ u ∈ videoBucket doc, tupLt (sortKey bv) (sortKey u) = false) ∧
      ba ∈ audioBucket doc ∧
      (∀ u ∈ audioBucket doc, tupLt (sortKey ba) (sortKey u) = false) ∧
      (∀ l : List UrlInfo, _select_best_url l = none ↔ l = []) := by
  have hv' : bestOf (videoBucket doc) ≠ none := by
    intro hcon
    exact hv ((bestOf_eq_none_iff _).mp hcon)
  have ha' : bestOf (audioBucket doc) ≠ none := by
    intro hcon
    exact ha ((bestOf_eq_none_iff _).mp hcon)
  obtain ⟨bv, hbv⟩ := Option.ne_none_iff_exists'.mp hv'
  obtain ⟨ba, hba⟩ := Option.ne_none_iff_exists'.mp ha'
  refine ⟨bv, ba, ?_, bestOf_mem hbv, bestOf_not_lt hbv,
    bestOf_mem hba, bestOf_not_lt hba, ?_⟩
  · simp [process_har, _select_best_url_eq_bestOf, hbv, hba]
  · intro l
    rw [_select_best_url_eq_bestOf]
    exact bestOf_eq_none_iff l

/-- **C1** witness: a two-entry capture document with one valid video
and one valid audio URL. -/
theorem process_har_selects_maximum_witness :
    ∃ bv ba,
      process_har ["videoplayback?mime=video&clen=2", "videoplayback?mime=audio&clen=1"]
        = (some bv, some ba) ∧
      bv ∈ videoBucket ["videoplayback?mime=video&clen=2", "videoplayback?mime=audio&clen=1"] ∧
      (∀ u ∈ videoBucket ["videoplayback?mime=video&clen=2", "videoplayback?mime=audio&clen=1"],
        tupLt (sortKey bv) (sortKey u) = false) ∧
      ba ∈ audioBucket ["videoplayback?mime=video&clen=2", "videoplayback?mime=audio&clen=1"] ∧
      (∀ u ∈ audioBucket ["videoplayback?mime=video&clen=2", "videoplayback?mime=audio&clen=1"],
        tupLt (sortKey ba) (sortKey u) = false) ∧
      (∀ l : List UrlInfo, _select_best_url l = none ↔ l = []) :=
  process_har_selects_maximum
    ["videoplayback?mime=video&clen=2", "videoplayback?mime=audio&clen=1"]
    (by decide) (by decide)

/-- **C10** (confirmed): `_select_best_url` is a deterministic function
of the candidate list, and on a nonempty list it returns the earliest
element attaining the maximal `(has_redirect, priority, clen)` key:
every earlier element is strictly smaller, and no element is strictly
greater. -/
theorem select_best_url_stable (l : List UrlInfo) (h : l ≠ []) :
    ∃ b l₁ l₂, _select_best_url l = some b ∧ l = l₁ ++ b :: l₂ ∧
      (∀ u ∈ l₁, tupLt (sortKey u) (sortKey b) = true) ∧
      (∀ u ∈ l, tupLt (sortKey b) (sortKey u) = false) := by
  have h' : bestOf l ≠ none := by
    intro hcon
    exact h ((bestOf_eq_none_iff _).mp hcon)
  obtain ⟨b, hb⟩ := Option.ne_none_iff_exists'.mp h'
  obtain ⟨l₁, l₂, hdecomp, hlt⟩ := bestOf_first_max hb
  exact ⟨b, l₁, l₂, (_select_best_url_eq_bestOf l).trans hb, hdecomp, hlt,
    bestOf_not_lt hb⟩

/-- **C10** witness: two candidates with identical keys; the selection
succeeds and the returned decomposition identifies the earliest
maximal element. -/
theorem select_best_url_stable_witness :
    ∃ b l₁ l₂,
      _select_best_url
        [{ url := "a", itag := none, priority := 0, clen := 0, has_redirect := false },
         { url := "b", itag := none, priority := 0, clen := 0, has_redirect := false }] = some b ∧
      [{ url := "a", itag := none, priority := 0, clen := 0, has_redirect := false },
       { url := "b", itag := none, priority := 0, clen := 0, has_redirect := false }] = l₁ ++ b :: l₂ ∧
      (∀ u ∈ l₁, tupLt (sortKey u) (sortKey b) = true) ∧
      (∀ u ∈ [{ url := "a", itag := none, priority := 0, clen := 0, has_redirect := false },
              { url := "b", itag := none, priority := 0, clen := 0, has_redirect := false }],
        tupLt (sortKey b) (sortKey u) = false) :=
  select_best_url_stable _ (by decide)

theorem lookup_eq_none_of_not_mem_keys (l : List (Nat × Nat)) (n : Nat)
    (h : n ∉ l.map Prod.fst) : l.lookup n = none := by
  induction l with
  | nil => rfl
  | cons p t ih =>
    obtain ⟨k, v⟩ := p
    simp only [List.map_cons, List.mem_cons, not_or] at h
    simp only [List.lookup, beq_eq_false_iff_ne.mpr h.1]
    exact ih h.2

/-- **C4** (confirmed): the lookup table satisfies the ordering
contract.  Every identifier of a higher resolution tier ranks strictly
above every identifier of a lower tier; at each resolution with two
stream variants the enhanced variant (the second entry of the source's
resolution group: 315 at 2160p, 308 at 1440p, 299 at 1080p, 298 at
720p) ranks strictly above the baseline entries of that group; the
audio ranks are strictly descending in bitrate; every identifier not
in the table ranks `0`. -/
theorem quality_priority_contract :
    List.Pairwise (fun hi lo => ∀ a ∈ hi, ∀ b ∈ lo, qualityRank b < qualityRank a)
      videoTiers ∧
    (qualityRank 313 < qualityRank 315 ∧ qualityRank 266 < qualityRank 315 ∧
     qualityRank 264 < qualityRank 308 ∧ qualityRank 137 < qualityRank 299 ∧
     qualityRank 136 < qualityRank 298) ∧
    List.Pairwise (fun hi lo => qualityRank lo < qualityRank hi) audioByBitrate ∧
    (∀ n, n ∉ qualityKeys → qualityRank n = 0) := by
  refine ⟨by decide, by decide, by decide, ?_⟩
  intro n hn
  unfold qualityRank
  rw [lookup_eq_none_of_not_mem_keys QUALITY_PRIORITY n hn]
  rfl

/-- **C4** witness: the identifier `1000` is not a key of the table and
ranks `0`. -/
theorem quality_priority_contract_witness : qualityRank 1000 = 0 :=
  quality_priority_contract.2.2.2 1000 (by decide)

/-- **C5** counterexample: the name `video_1_A.mp4` carries an
uppercase token character, so under the claim's rule (case-insensitive
on the role part only, token matched exactly as written) it must be
ignored; the source accepts it and derives the key `1_A`. -/
theorem extract_session_info_claim_counterexample :
    extract_session_info "video_1_A.mp4" = some ("video", "1_A") ∧
      claimAccepts "video_1_A.mp4" = false := by
  decide

theorem takeWhile_append_cons {p : Char → Bool} {l r : List Char} {x : Char}
    (hl : ∀ c ∈ l, p c = true) (hx : p x = false) :
    (l ++ x :: r).takeWhile p = l ∧ (l ++ x :: r).dropWhile p = x :: r := by
  induction l with
  | nil => simp [List.takeWhile, List.dropWhile, hx]
  | cons c cs ih =>
    have hc : p c = true := hl c (List.mem_cons_self c cs)
    have ih' := ih (fun d hd => hl d (List.mem_cons_of_mem c hd))
    simp only [List.cons_append, List.takeWhile_cons, List.dropWhile_cons, hc,
      if_true]
    exact ⟨by rw [ih'.1], by rw [ih'.2]⟩

theorem matchBody_sound {body ds tk : List Char}
    (h : matchBody body = some (ds, tk)) :
    body = ds ++ '_' :: tk ∧ ds ≠ [] ∧ (∀ c ∈ ds, c.isDigit = true) ∧
      tk ≠ [] ∧ (∀ c ∈ tk, (c.isAlpha || c.isDigit) = true) := by
  simp only [matchBody] at h
  split at h
  · rename_i tk' heq
    split at h
    · rename_i hguard
      simp only [Option.some.injEq, Prod.mk.injEq] at h
      obtain ⟨hds, htk⟩ := h
      subst htk
      simp only [Bool.and_eq_true, List.all_eq_true] at hguard
      obtain ⟨⟨⟨hne, hdig⟩, hne'⟩, halnum⟩ := hguard
      refine ⟨?_, ?_, fun c hc => hdig c (hds ▸ hc), ?_,
        fun c hc => halnum c hc⟩
      · conv_lhs => rw [← List.takeWhile_append_dropWhile
          (p := fun c => c != '_') (l := body)]
        rw [heq, hds]
      · intro hcon
        rw [hds, hcon] at hne
        simp at hne
      · intro hcon
        rw [hcon] at hne'
        simp at hne'
    · simp at h
  · simp at h

theorem matchBody_complete {ds tk : List Char} (hds : ds ≠ [])
    (hdig : ∀ c ∈ ds, c.isDigit = true) (htk : tk ≠ [])
    (haln : ∀ c ∈ tk, (c.isAlpha || c.isDigit) = true) :
    matchBody (ds ++ '_' :: tk) = some (ds, tk) := by
  have hl : ∀ c ∈ ds, (c != '_') = true := by
    intro c hc
    have hd := hdig c hc
    simp only [bne_iff_ne, ne_eq]
    intro hcon
    rw [hcon] at hd
    exact absurd hd (by decide)
  have hx : (('_' : Char) != '_') = false := by decide
  obtain ⟨ht, hd⟩ :=
    takeWhile_append_cons (p := fun c => c != '_') (l := ds) (r := tk)
      (x := '_') hl hx
  have h1 : ds.isEmpty = false := by
    cases ds with
    | nil => exact absurd rfl hds
    | cons a l => rfl
  have h2 : tk.isEmpty = false := by
    cases tk with
    | nil => exact absurd rfl htk
    | cons a l => rfl
  simp only [matchBody, ht, hd]
  simp [h1, h2, List.all_eq_true]
  refine ⟨hdig, fun x hx hfa => ?_⟩
  have h' := haln x hx
  rw [hfa] at h'
  simpa using h'

theorem extractAfterRole_sound {role r k : String} {s : List Char}
    (h : extractAfterRole role s = some (r, k)) :
    r = role ∧ ∃ ds tk ext,
      s.drop 6 = ds ++ ('_' :: (tk ++ ext)) ∧
      k = String.mk (ds ++ '_' :: tk) ∧
      ds ≠ [] ∧ (∀ c ∈ ds, c.isDigit = true) ∧
      tk ≠ [] ∧ (∀ c ∈ tk, (c.isAlpha || c.isDigit) = true) ∧
      ext.map Char.toLower = ".mp4".toList := by
  simp only [extractAfterRole] at h
  split at h
  · rename_i hext
    split at h
    · rename_i ds tk hmb
      simp only [Option.some.injEq, Prod.mk.injEq] at h
      obtain ⟨hr, hk⟩ := h
      obtain ⟨hbody, hdsne, hdig, htkne, haln⟩ := matchBody_sound hmb
      refine ⟨hr.symm, ds, tk, (s.drop 6).drop ((s.drop 6).length - 4), ?_,
        hk.symm, hdsne, hdig, htkne, haln, ?_⟩
      · conv_lhs => rw [← List.take_append_drop ((s.drop 6).length - 4) (s.drop 6)]
        rw [hbody]
        simp
      · have hext' : ((s.map Char.toLower).drop 6).drop ((s.drop 6).length - 4)
            = ".mp4".toList := by
          exact eq_of_beq hext
        rw [← List.map_drop, ← List.map_drop] at hext'
        exact hext'
    · simp at h
  · simp at h

theorem extractAfterRole_complete {role : String} {s ds tk ext : List Char}
    (hrest : s.drop 6 = ds ++ ('_' :: (tk ++ ext)))
    (hds : ds ≠ []) (hdig : ∀ c ∈ ds, c.isDigit = true)
    (htk : tk ≠ []) (haln : ∀ c ∈ tk, (c.isAlpha || c.isDigit) = true)
    (hext : ext.map Char.toLower = ".mp4".toList) :
    extractAfterRole role s = some (role, String.mk (ds ++ '_' :: tk)) := by
  have hextlen : ext.length = 4 := by
    have := congrArg List.length hext
    simpa using this
  have hrest' : s.drop 6 = (ds ++ '_' :: tk) ++ ext := by
    rw [hrest]
    simp
  have hlen : (s.drop 6).length - 4 = (ds ++ '_' :: tk).length := by
    rw [hrest', List.length_append, hextlen]
    omega
  have hbody : (s.drop 6).take ((s.drop 6).length - 4) = ds ++ '_' :: tk := by
    rw [hlen, hrest']
    exact List.take_left _ _
  have hexteq : ((s.map Char.toLower).drop 6).drop ((s.drop 6).length - 4)
      = ".mp4".toList := by
    rw [← List.map_drop, hlen, hrest', ← List.map_drop]
    rw [List.drop_left]
    exact hext
  simp only [extractAfterRole, hexteq, hbody, beq_self_eq_true, if_true,
    matchBody_complete hds hdig htk haln]

theorem extractCore_sound {s : List Char} {r k : String}
    (h : extractCore s = some (r, k)) :
    (r = "video" ∨ r = "audio") ∧ ∃ role6 ds tk ext,
      s = role6 ++ (ds ++ ('_' :: (tk ++ ext))) ∧
      (role6.map Char.toLower = "video_".toList ∨
        role6.map Char.toLower = "audio_".toList) ∧
      k = String.mk (ds ++ '_' :: tk) ∧
      ds ≠ [] ∧ (∀ c ∈ ds, c.isDigit = true) ∧
      tk ≠ [] ∧ (∀ c ∈ tk, (c.isAlpha || c.isDigit) = true) ∧
      ext.map Char.toLower = ".mp4".toList := by
  simp only [extractCore] at h
  split at h
  · rename_i hv
    obtain ⟨hr, ds, tk, ext, hrest, hk, hdsne, hdig, htkne, haln, hext⟩ :=
      extractAfterRole_sound h
    refine ⟨Or.inl hr, s.take 6, ds, tk, ext, ?_, Or.inl ?_, hk, hdsne, hdig,
      htkne, haln, hext⟩
    · conv_lhs => rw [← List.take_append_drop 6 s]
      rw [hrest]
    · rw [List.map_take]
      exact eq_of_beq hv
  · split at h
    · rename_i ha
      obtain ⟨hr, ds, tk, ext, hrest, hk, hdsne, hdig, htkne, haln, hext⟩ :=
        extractAfterRole_sound h
      refine ⟨Or.inr hr, s.take 6, ds, tk, ext, ?_, Or.inr ?_, hk, hdsne, hdig,
        htkne, haln, hext⟩
      · conv_lhs => rw [← List.take_append_drop 6 s]
        rw [hrest]
      · rw [List.map_take]
        exact eq_of_beq ha
    · simp at h

theorem extractCore_complete {s : List Char} (h : ValidName s) :
    (extractCore s).isSome = true := by
  obtain ⟨role6, ds, tk, ext, hs, hrole, hds, hdig, htk, haln, hext⟩ := h
  have hlen6 : role6.length = 6 := by
    rcases hrole with h' | h' <;>
      · have := congrArg List.length h'
        simpa using this
  have hdrop : s.drop 6 = ds ++ ('_' :: (tk ++ ext)) := by
    rw [hs, ← hlen6]
    exact List.drop_left _ _
  have hmaptake : (s.map Char.toLower).take 6 = role6.map Char.toLower := by
    rw [← List.map_take, hs, ← hlen6, List.take_left]
  rcases hrole with h' | h'
  · have hcond : ((s.map Char.toLower).take 6 == "video_".toList) = true := by
      rw [hmaptake, h']
      exact beq_self_eq_true _
    simp only [extractCore, hcond, if_true,
      extractAfterRole_complete hdrop hds hdig htk haln hext, Option.isSome_some]
  · have hcond1 : ((s.map Char.toLower).take 6 == "video_".toList) = false := by
      rw [hmaptake, h']
      decide
    have hcond2 : ((s.map Char.toLower).take 6 == "audio_".toList) = true := by
      rw [hmaptake, h']
      exact beq_self_eq_true _
    simp only [extractCore, hcond1, hcond2, if_true, Bool.false_eq_true, if_false,
      extractAfterRole_complete hdrop hds hdig htk haln hext, Option.isSome_some]

theorem lookup_upsert (sid : String) (v : Option String × Option String)
    (l : List (String × (Option String × Option String))) :
    (upsert sid v l).lookup sid = some v := by
  induction l with
  | nil => simp [upsert, List.lookup]
  | cons p rest ih =>
    obtain ⟨k, x⟩ := p
    by_cases hk : k = sid
    · simp [upsert, hk, List.lookup]
    · simp only [upsert, hk, if_false]
      simp only [List.lookup, beq_eq_false_iff_ne.mpr (fun h => hk h.symm)]
      exact ih

/-! ## C5: filename-to-session-key derivation -/

/-- **C5** (amended, confirmed): `extract_session_info` accepts a name
if and only if (after tolerating one trailing newline, from `$`) it
has the shape `{role}_{timestamp}_{token}.mp4` matched case-
insensitively as a whole — role in `{video, audio}`, digit timestamp,
alphanumeric token of either case, case-insensitive `.mp4` extension.
The derived key is `{timestamp}_{token}` with the token's original
case preserved, the role is returned lowercased, and a non-matching
name leaves `process_file` without any state change or merge
invocation. -/
theorem extract_session_info_amended (f : String) :
    ((extract_session_info f).isSome = true ↔ ValidName (stripNL f.toList)) ∧
    (∀ r k, extract_session_info f = some (r, k) →
      (r = "video" ∨ r = "audio") ∧ ∃ role6 ds tk ext,
        stripNL f.toList = role6 ++ (ds ++ ('_' :: (tk ++ ext))) ∧
        (role6.map Char.toLower = "video_".toList ∨
          role6.map Char.toLower = "audio_".toList) ∧
        k = String.mk (ds ++ '_' :: tk) ∧
        ds ≠ [] ∧ (∀ c ∈ ds, c.isDigit = true) ∧
        tk ≠ [] ∧ (∀ c ∈ tk, (c.isAlpha || c.isDigit) = true) ∧
        ext.map Char.toLower = ".mp4".toList) ∧
    (∀ (ready : String → Bool) (mergeOk : String → String → Bool)
      (st : MState) (fp : String), extract_session_info (basename fp) = none →
        process_file ready mergeOk st fp = (st, [])) := by
  refine ⟨⟨?_, ?_⟩, ?_, ?_⟩
  · intro h
    obtain ⟨⟨r, k⟩, hrk⟩ := Option.isSome_iff_exists.mp h
    obtain ⟨_, role6, ds, tk, ext, hdecomp, hrole, _, hprops⟩ :=
      extractCore_sound (s := stripNL f.toList) hrk
    exact ⟨role6, ds, tk, ext, hdecomp, hrole, hprops.1, hprops.2.1,
      hprops.2.2.1, hprops.2.2.2.1, hprops.2.2.2.2⟩
  · intro h
    exact extractCore_complete h
  · intro r k hrk
    obtain ⟨hr, role6, ds, tk, ext, hdecomp, hrole, hk, hprops⟩ :=
      extractCore_sound (s := stripNL f.toList) hrk
    exact ⟨hr, role6, ds, tk, ext, hdecomp, hrole, hk, hprops⟩
  · intro ready mergeOk st fp h
    simp [process_file, h]

/-- **C5** witness: the canonical name `video_12_ab.mp4` is accepted
with key `12_ab`, and an unrecognized name is a correlator no-op. -/
theorem extract_session_info_amended_witness :
    ((r : String) → (k : String) →
      extract_session_info "video_12_ab.mp4" = some (r, k) →
      (r = "video" ∨ r = "audio") ∧ ∃ role6 ds tk ext,
        stripNL "video_12_ab.mp4".toList = role6 ++ (ds ++ ('_' :: (tk ++ ext))) ∧
        (role6.map Char.toLower = "video_".toList ∨
          role6.map Char.toLower = "audio_".toList) ∧
        k = String.mk (ds ++ '_' :: tk) ∧
        ds ≠ [] ∧ (∀ c ∈ ds, c.isDigit = true) ∧
        tk ≠ [] ∧ (∀ c ∈ tk, (c.isAlpha || c.isDigit) = true) ∧
        ext.map Char.toLower = ".mp4".toList) ∧
    process_file (fun _ => true) (fun _ _ => true)
      { pending := [], processed := [] } "notes.txt"
      = ({ pending := [], processed := [] }, []) :=
  ⟨(extract_session_info_amended "video_12_ab.mp4").2.1,
    (extract_session_info_amended "notes.txt").2.2
      (fun _ => true) (fun _ _ => true) { pending := [], processed := [] }
      "notes.txt" (by decide)⟩

/-! ## C3: no second merge for a processed session -/

/-- **C3** (confirmed): once a session key is recorded in the
processed set, redelivery of a matching file makes `process_file`
return with no state change and no remux invocation, and
`combine_session` likewise returns immediately without invoking the
dispatcher. -/
theorem no_second_merge (ready : String → Bool)
    (mergeOk : String → String → Bool) (st : MState) (fp ft sid : String)
    (hinfo : extract_session_info (basename fp) = some (ft, sid))
    (hproc : st.processed.contains sid = true) :
    process_file ready mergeOk st fp = (st, []) ∧
      combine_session mergeOk st sid = (st, []) := by
  have hmem : sid ∈ st.processed := by simpa using hproc
  constructor
  · simp [process_file, hinfo, hmem]
  · simp [combine_session, hmem]

/-- **C3** witness: with `100_abc` already processed, redelivering
`video_100_abc.mp4` triggers nothing. -/
theorem no_second_merge_witness :
    process_file (fun _ => true) (fun _ _ => true)
      { pending := [], processed := ["100_abc"] } "video_100_abc.mp4"
      = ({ pending := [], processed := ["100_abc"] }, []) ∧
    combine_session (fun _ _ => true)
      { pending := [], processed := ["100_abc"] } "100_abc"
      = ({ pending := [], processed := ["100_abc"] }, []) :=
  no_second_merge (fun _ => true) (fun _ _ => true)
    { pending := [], processed := ["100_abc"] } "video_100_abc.mp4"
    "video" "100_abc" (by decide) (by decide)

/-! ## C9: pairing is commutative in arrival order -/

/-- **C9** (confirmed): for a fresh session, delivering the video half
then the audio half produces exactly one merge invocation
`(videoPath, audioPath)`, and delivering them in the reverse order
produces the identical invocation — the dispatcher always receives the
video path first and the audio path second. -/
theorem pairing_commutative (ready : String → Bool)
    (mergeOk : String → String → Bool) (st : MState) (fpv fpa sid : String)
    (hv : extract_session_info (basename fpv) = some ("video", sid))
    (ha : extract_session_info (basename fpa) = some ("audio", sid))
    (hrv : ready fpv = true) (hra : ready fpa = true)
    (hnp : st.processed.contains sid = false)
    (hpd : st.pending.lookup sid = none) :
    (process_file ready mergeOk st fpv).2 = [] ∧
    (process_file ready mergeOk (process_file ready mergeOk st fpv).1 fpa).2
      = [(fpv, fpa)] ∧
    (process_file ready mergeOk st fpa).2 = [] ∧
    (process_file ready mergeOk (process_file ready mergeOk st fpa).1 fpv).2
      = [(fpv, fpa)] := by
  have hmem : sid ∉ st.processed := by
    intro hcon
    have := List.elem_eq_true_of_mem hcon
    rw [show List.elem sid st.processed = st.processed.contains sid from rfl,
      hnp] at this
    exact Bool.false_ne_true this
  have e1 : process_file ready mergeOk st fpv =
      ({ st with pending := upsert sid (some fpv, none) st.pending }, []) := by
    simp [process_file, hv, hmem, hrv, hpd]
  have e2 : process_file ready mergeOk
      ({ st with pending := upsert sid (some fpv, none) st.pending }) fpa =
      ({ pending := eraseKey sid
          (upsert sid (some fpv, some fpa) (upsert sid (some fpv, none) st.pending)),
         processed := if mergeOk fpv fpa then sid :: st.processed else st.processed },
        [(fpv, fpa)]) := by
    simp [process_file, ha, hmem, hra, lookup_upsert, combine_session]
  have e3 : process_file ready mergeOk st fpa =
      ({ st with pending := upsert sid (none, some fpa) st.pending }, []) := by
    simp [process_file, ha, hmem, hra, hpd]
  have e4 : process_file ready mergeOk
      ({ st with pending := upsert sid (none, some fpa) st.pending }) fpv =
      ({ pending := eraseKey sid
          (upsert sid (some fpv, some fpa) (upsert sid (none, some fpa) st.pending)),
         processed := if mergeOk fpv fpa then sid :: st.processed else st.processed },
        [(fpv, fpa)]) := by
    simp [process_file, hv, hmem, hrv, lookup_upsert, combine_session]
  refine ⟨?_, ?_, ?_, ?_⟩
  · rw [e1]
  · rw [e1, e2]
  · rw [e3]
  · rw [e3, e4]

/-- **C9** witness: `video_1_a.mp4` then `audio_1_a.mp4`, and the
reverse, both produce the single invocation
`(video_1_a.mp4, audio_1_a.mp4)` from the empty state. -/
theorem pairing_commutative_witness :
    (process_file (fun _ => true) (fun _ _ => true)
      { pending := [], processed := [] } "video_1_a.mp4").2 = [] ∧
    (process_file (fun _ => true) (fun _ _ => true)
      (process_file (fun _ => true) (fun _ _ => true)
        { pending := [], processed := [] } "video_1_a.mp4").1 "audio_1_a.mp4").2
      = [("video_1_a.mp4", "audio_1_a.mp4")] ∧
    (process_file (fun _ => true) (fun _ _ => true)
      { pending := [], processed := [] } "audio_1_a.mp4").2 = [] ∧
    (process_file (fun _ => true) (fun _ _ => true)
      (process_file (fun _ => true) (fun _ _ => true)
        { pending := [], processed := [] } "audio_1_a.mp4").1 "video_1_a.mp4").2
      = [("video_1_a.mp4", "audio_1_a.mp4")] :=
  pairing_commutative (fun _ => true) (fun _ _ => true)
    { pending := [], processed := [] } "video_1_a.mp4" "audio_1_a.mp4" "1_a"
    (by decide) (by decide) rfl rfl (by decide) (by decide)

/-! ## C6 and C7: file-size stability -/
theorem stableLoop_true_decomp :
    ∀ (rs : List Nat) (last : Int) (c : Nat),
      stableLoop (rs.map some) last c = true →
      (∃ pre v post, rs = pre ++ v :: v :: v :: post ∧ 0 < v) ∨
      (∃ (n : Nat) (v : Nat) (post : List Nat),
        rs = List.replicate n v ++ post ∧ (v : Int) = last ∧
        0 < v ∧ 3 ≤ n + c) := by
  intro rs
  induction rs with
  | nil => intro last c h; simp [stableLoop] at h
  | cons x xs ih =>
    intro last c h
    simp only [List.map_cons, stableLoop] at h
    split at h
    · rename_i hcond
      obtain ⟨hlast, hpos⟩ := hcond
      split at h
      · rename_i hc3
        right
        exact ⟨1, x, xs, by simp, hlast, hpos, by omega⟩
      · rename_i hc3
        rcases ih last (c + 1) h with hleft | ⟨n, v, post, hdec, hv, hvpos, hn⟩
        · left
          obtain ⟨pre, v, post, hd, hvp⟩ := hleft
          exact ⟨x :: pre, v, post, by rw [hd]; rfl, hvp⟩
        · right
          have hxv : x = v := by
            have : (x : Int) = (v : Int) := by rw [hlast, hv]
            exact_mod_cast this
          refine ⟨n + 1, v, post, ?_, hv, hvpos, by omega⟩
          rw [List.replicate_succ, hxv, hdec]
          rfl
    · rename_i hcond
      rcases ih x 0 h with hleft | ⟨n, v, post, hdec, hv, hvpos, hn⟩
      · left
        obtain ⟨pre, v, post, hd, hvp⟩ := hleft
        exact ⟨x :: pre, v, post, by rw [hd]; rfl, hvp⟩
      · left
        have hn3 : 3 ≤ n := by omega
        refine ⟨[x], v, List.replicate (n - 3) v ++ post, ?_, hvpos⟩
        have : List.replicate n v = v :: v :: v :: List.replicate (n - 3) v := by
          have hrw : n = ((n - 3) + 1 + 1 + 1) := by omega
          conv_lhs => rw [hrw]
          simp [List.replicate_succ]
        rw [hdec, this]
        rfl

theorem stableLoop_changing :
    ∀ (rs : List Nat) (last : Int) (c : Nat),
      List.Chain' (fun a b => a ≠ b) rs →
      (∀ v, rs.head? = some v → ¬((v : Int) = last ∧ 0 < v)) →
      stableLoop (rs.map some) last c = false := by
  intro rs
  induction rs with
  | nil => intro last c _ _; rfl
  | cons x xs ih =>
    intro last c hchain hhead
    simp only [List.map_cons, stableLoop]
    rw [if_neg (hhead x rfl)]
    refine ih x 0 (List.Chain'.tail hchain) ?_
    intro v hv
    intro ⟨hveq, _⟩
    cases xs with
    | nil => simp at hv
    | cons y ys =>
      have hyv : y = v := by simpa using hv
      have hne : x ≠ y := (List.chain'_cons.mp hchain).1
      apply hne
      have hxy : (x : Int) = (v : Int) := hveq.symm
      rw [← hyv] at hxy
      exact_mod_cast hxy

/-- **C6** (confirmed): `check_file_ready` returns `true` only when the
observed size sequence contains at least three consecutive equal
nonzero readings, and returns `false` when every consecutive pair of
readings differs (the size keeps changing) until the iteration budget
— the overall timeout — is exhausted. -/
theorem check_file_ready_stability (rs₁ rs₂ : List Nat)
    (h1 : check_file_ready true (rs₁.map some) = true)
    (h2 : List.Chain' (fun a b => a ≠ b) rs₂) :
    (∃ pre v post, rs₁ = pre ++ v :: v :: v :: post ∧ 0 < v) ∧
      check_file_ready true (rs₂.map some) = false := by
  constructor
  · rw [show check_file_ready true (rs₁.map some)
        = stableLoop (rs₁.map some) (-1) 0 from rfl] at h1
    rcases stableLoop_true_decomp rs₁ (-1) 0 h1 with hleft |
      ⟨n, v, post, hdec, hv, hvpos, hn⟩
    · exact hleft
    · exfalso
      omega
  · rw [show check_file_ready true (rs₂.map some)
        = stableLoop (rs₂.map some) (-1) 0 from rfl]
    refine stableLoop_changing rs₂ (-1) 0 h2 ?_
    intro v _
    intro ⟨hveq, _⟩
    omega

/-- **C6** witness: four equal readings of `5` make the poller report
ready (and indeed contain three consecutive equal nonzero readings),
while the strictly changing sequence `1, 2, 3` times out. -/
theorem check_file_ready_stability_witness :
    (∃ pre v post, [5, 5, 5, 5] = pre ++ v :: v :: v :: post ∧ 0 < v) ∧
      check_file_ready true ([1, 2, 3].map some) = false :=
  check_file_ready_stability [5, 5, 5, 5] [1, 2, 3] (by decide)
    (by simp [List.chain'_cons])

/-- **C7** (amended, confirmed): per-iteration behaviour of the polling
loop.  A failed size probe (`except OSError: pass`) leaves both the
stability counter and the remembered size unchanged; a successful
probe whose size differs from the previous reading, or equals zero,
resets the counter to zero and stores the new size; the counter
increments only on an equal nonzero reading, reporting ready at
three. -/
theorem stableLoop_transitions (rs : List (Option Nat)) (last : Int)
    (c : Nat) (cur : Nat) :
    stableLoop (none :: rs) last c = stableLoop rs last c ∧
    (¬((cur : Int) = last ∧ 0 < cur) →
      stableLoop (some cur :: rs) last c = stableLoop rs (cur : Int) 0) ∧
    ((cur : Int) = last ∧ 0 < cur →
      stableLoop (some cur :: rs) last c =
        if c + 1 ≥ 3 then true else stableLoop rs last (c + 1)) := by
  refine ⟨rfl, ?_, ?_⟩
  · intro h
    simp only [stableLoop]
    rw [if_neg h]
  · intro h
    simp only [stableLoop]
    rw [if_pos h]

/-- **C7** witness: concrete instantiations of all three transition
equations. -/
theorem stableLoop_transitions_witness :
    stableLoop [none, some 1] 0 1 = stableLoop [some 1] 0 1 ∧
    stableLoop [some 1] 0 1 = stableLoop [] 1 0 ∧
    stableLoop [some 1] 1 1 = if 1 + 1 ≥ 3 then true else stableLoop [] 1 (1 + 1) :=
  ⟨(stableLoop_transitions [some 1] 0 1 1).1,
    (stableLoop_transitions [] 0 1 1).2.1 (by omega),
    (stableLoop_transitions [] 1 1 1).2.2 (by omega)⟩

/-- **C7** counterexample: with the probe sequence
`5, 5, ⟨missing⟩, 5, 5` the source reports ready — after the failed
probe the counter is *retained* (the `OSError` handler is `pass`), so
the two later readings complete the count of three — whereas under the
claim's semantics (counter reset on a missing file) the same sequence
times out. -/
theorem stableLoop_claim_counterexample :
    check_file_ready true [some 5, some 5, none, some 5, some 5] = true ∧
      stableLoopClaim [some 5, some 5, none, some 5, some 5] (-1) 0 = false := by
  decide

/-! ## C8: the remux subprocess contract -/

/-- **C8** (confirmed): `merge_files` invokes the remux tool with
exactly the argument list
`[tool, -i, video, -i, audio, -c:v, copy, -c:a, copy, -y, output]`,
returns `true` exactly when that run completes with exit code `0`, and
returns `false` (rather than raising) on a non-zero exit code, a
timeout, a missing executable, and any other launch error. -/
theorem merge_files_contract (run : List String → RunResult)
    (p v a o : String) :
    (merge_files run p v a o = true ↔
      run [p, "-i", v, "-i", a, "-c:v", "copy", "-c:a", "copy", "-y", o]
        = RunResult.completed 0) ∧
    (∀ rc : Int, run (buildCmd p v a o) = RunResult.completed rc → rc ≠ 0 →
      merge_files run p v a o = false) ∧
    (run (buildCmd p v a o) = RunResult.timedOut →
      merge_files run p v a o = false) ∧
    (run (buildCmd p v a o) = RunResult.notFound →
      merge_files run p v a o = false) ∧
    (run (buildCmd p v a o) = RunResult.otherError →
      merge_files run p v a o = false) := by
  refine ⟨?_, ?_, ?_, ?_, ?_⟩
  · rw [show [p, "-i", v, "-i", a, "-c:v", "copy", "-c:a", "copy", "-y", o]
        = buildCmd p v a o from rfl]
    unfold merge_files
    cases hr : run (buildCmd p v a o) with
    | completed rc => simp [hr]
    | timedOut => simp [hr]
    | notFound => simp [hr]
    | otherError => simp [hr]
  · intro rc hr hrc
    unfold merge_files
    rw [hr]
    simpa using hrc
  · intro hr
    unfold merge_files
    rw [hr]
  · intro hr
    unfold merge_files
    rw [hr]
  · intro hr
    unfold merge_files
    rw [hr]

/-- **C8** witness: each failure discriminant at concrete arguments. -/
theorem merge_files_contract_witness :
    merge_files (fun _ => RunResult.completed 1) "ffmpeg" "v.mp4" "a.mp4" "o.mp4" = false ∧
    merge_files (fun _ => RunResult.timedOut) "ffmpeg" "v.mp4" "a.mp4" "o.mp4" = false ∧
    merge_files (fun _ => RunResult.notFound) "ffmpeg" "v.mp4" "a.mp4" "o.mp4" = false ∧
    merge_files (fun _ => RunResult.otherError) "ffmpeg" "v.mp4" "a.mp4" "o.mp4" = false ∧
    merge_files (fun _ => RunResult.completed 0) "ffmpeg" "v.mp4" "a.mp4" "o.mp4" = true :=
  ⟨(merge_files_contract (fun _ => RunResult.completed 1) "ffmpeg" "v.mp4" "a.mp4" "o.mp4").2.1
      1 rfl (by decide),
    (merge_files_contract (fun _ => RunResult.timedOut) "ffmpeg" "v.mp4" "a.mp4" "o.mp4").2.2.1 rfl,
    (merge_files_contract (fun _ => RunResult.notFound) "ffmpeg" "v.mp4" "a.mp4" "o.mp4").2.2.2.1 rfl,
    (merge_files_contract (fun _ => RunResult.otherError) "ffmpeg" "v.mp4" "a.mp4" "o.mp4").2.2.2.2 rfl,
    (merge_files_contract (fun _ => RunResult.completed 0) "ffmpeg" "v.mp4" "a.mp4" "o.mp4").1.mpr rfl⟩

end Merger
